import Mathlib

/-!
Verification of the child-identity and duplicate-prevention logic of the
creche-app repository (`src/utils/childKey.ts`, `src/services/children.ts`).

Strings are embedded as Lean `String` (a list of Unicode scalar values).
The ECMAScript runtime built-ins used by `normalizeName`
(`String.prototype.trim`, `toLowerCase`, `normalize("NFD")` and the regex
character class `\s`) are external platform collaborators; they are
modelled faithfully on the Latin-1 letter repertoire (the identity beyond
it).  The document store (Firestore) is modelled as an association list
from document ids to records, with `runTransaction` modelled as an atomic
read-check-write step that either runs to completion or fails with an
infrastructure error injected by the environment.
-/

namespace Creche

/-- The ECMAScript `\s` / WhiteSpace ∪ LineTerminator character class, used
both by `String.prototype.trim` and by the regexes `/[^a-z0-9\s-]/` and
`/[\s-]+/` in `normalizeName`. -/
def isJsWS (c : Char) : Bool :=
  let n := c.toNat
  (9 ≤ n && n ≤ 13) || n == 32 || n == 160 || n == 5760 ||
  (8192 ≤ n && n ≤ 8202) || n == 8232 || n == 8233 || n == 8239 ||
  n == 8287 || n == 12288 || n == 65279

/-- Model of `String.prototype.toLowerCase`, faithful on the ASCII and
Latin-1 letter repertoire (`A`–`Z` and `À`–`Þ` except `×`), the identity
elsewhere. -/
def jsToLower (c : Char) : Char :=
  match c with
  | 'A' => 'a' | 'B' => 'b' | 'C' => 'c' | 'D' => 'd' | 'E' => 'e'
  | 'F' => 'f' | 'G' => 'g' | 'H' => 'h' | 'I' => 'i' | 'J' => 'j'
  | 'K' => 'k' | 'L' => 'l' | 'M' => 'm' | 'N' => 'n' | 'O' => 'o'
  | 'P' => 'p' | 'Q' => 'q' | 'R' => 'r' | 'S' => 's' | 'T' => 't'
  | 'U' => 'u' | 'V' => 'v' | 'W' => 'w' | 'X' => 'x' | 'Y' => 'y'
  | 'Z' => 'z'
  | 'À' => 'à' | 'Á' => 'á' | 'Â' => 'â' | 'Ã' => 'ã' | 'Ä' => 'ä'
  | 'Å' => 'å' | 'Æ' => 'æ' | 'Ç' => 'ç' | 'È' => 'è' | 'É' => 'é'
  | 'Ê' => 'ê' | 'Ë' => 'ë' | 'Ì' => 'ì' | 'Í' => 'í' | 'Î' => 'î'
  | 'Ï' => 'ï' | 'Ð' => 'ð' | 'Ñ' => 'ñ' | 'Ò' => 'ò' | 'Ó' => 'ó'
  | 'Ô' => 'ô' | 'Õ' => 'õ' | 'Ö' => 'ö' | 'Ø' => 'ø' | 'Ù' => 'ù'
  | 'Ú' => 'ú' | 'Û' => 'û' | 'Ü' => 'ü' | 'Ý' => 'ý' | 'Þ' => 'þ'
  | c => c

/-- Model of Unicode NFD decomposition (`String.prototype.normalize("NFD")`)
on a single scalar, faithful on the precomposed Latin-1 letters, the
identity elsewhere. -/
def nfdChar (c : Char) : List Char :=
  match c with
  | 'À' => ['A', '̀'] | 'Á' => ['A', '́'] | 'Â' => ['A', '̂']
  | 'Ã' => ['A', '̃'] | 'Ä' => ['A', '̈'] | 'Å' => ['A', '̊']
  | 'Ç' => ['C', '̧']
  | 'È' => ['E', '̀'] | 'É' => ['E', '́'] | 'Ê' => ['E', '̂']
  | 'Ë' => ['E', '̈']
  | 'Ì' => ['I', '̀'] | 'Í' => ['I', '́'] | 'Î' => ['I', '̂']
  | 'Ï' => ['I', '̈']
  | 'Ñ' => ['N', '̃']
  | 'Ò' => ['O', '̀'] | 'Ó' => ['O', '́'] | 'Ô' => ['O', '̂']
  | 'Õ' => ['O', '̃'] | 'Ö' => ['O', '̈']
  | 'Ù' => ['U', '̀'] | 'Ú' => ['U', '́'] | 'Û' => ['U', '̂']
  | 'Ü' => ['U', '̈']
  | 'Ý' => ['Y', '́']
  | 'à' => ['a', '̀'] | 'á' => ['a', '́'] | 'â' => ['a', '̂']
  | 'ã' => ['a', '̃'] | 'ä' => ['a', '̈'] | 'å' => ['a', '̊']
  | 'ç' => ['c', '̧']
  | 'è' => ['e', '̀'] | 'é' => ['e', '́'] | 'ê' => ['e', '̂']
  | 'ë' => ['e', '̈']
  | 'ì' => ['i', '̀'] | 'í' => ['i', '́'] | 'î' => ['i', '̂']
  | 'ï' => ['i', '̈']
  | 'ñ' => ['n', '̃']
  | 'ò' => ['o', '̀'] | 'ó' => ['o', '́'] | 'ô' => ['o', '̂']
  | 'õ' => ['o', '̃'] | 'ö' => ['o', '̈']
  | 'ù' => ['u', '̀'] | 'ú' => ['u', '́'] | 'û' => ['u', '̂']
  | 'ü' => ['u', '̈']
  | 'ý' => ['y', '́'] | 'ÿ' => ['y', '̈']
  | c => [c]

/-- The combining diacritical marks block `[̀-ͯ]` removed by
`normalizeName`. -/
def isCombining (c : Char) : Bool :=
  0x300 ≤ c.toNat && c.toNat ≤ 0x36F

/-- The character class `[a-z0-9\s-]` kept by the regex replacement
`.replace(/[^a-z0-9\s-]/g, "")` (`a`–`z` is 97–122, `0`–`9` is 48–57). -/
def isKept (c : Char) : Bool :=
  (97 ≤ c.toNat && c.toNat ≤ 122) || (48 ≤ c.toNat && c.toNat ≤ 57) ||
  isJsWS c || c == '-'

/-- The character class `[\s-]` whose runs are collapsed by
`.replace(/[\s-]+/g, "-")`. -/
def isSep (c : Char) : Bool :=
  isJsWS c || c == '-'

/-- `String.prototype.trim` on a character list: drop ECMAScript
whitespace from both ends. -/
def trimList (l : List Char) : List Char :=
  ((l.dropWhile isJsWS).reverse.dropWhile isJsWS).reverse

/-- `.replace(/[\s-]+/g, "-")`: the flag records whether the previous
character was part of a separator run. -/
def collapseAux : Bool → List Char → List Char
  | _, [] => []
  | inSep, c :: rest =>
    if isSep c then
      if inSep then collapseAux true rest
      else '-' :: collapseAux true rest
    else c :: collapseAux false rest

def collapse (l : List Char) : List Char :=
  collapseAux false l

/-- `.replace(/^-+|-+$/g, "")`: drop hyphens from both ends. -/
def stripHyphens (l : List Char) : List Char :=
  ((l.dropWhile (fun c => c == '-')).reverse.dropWhile (fun c => c == '-')).reverse

/-- Embedding of `normalizeName` from `src/utils/childKey.ts`: trim,
lower-case, NFD-decompose, remove combining marks, remove characters
outside `[a-z0-9\s-]`, collapse separator runs to a single hyphen, strip
leading/trailing hyphens. -/
def normalizeName (s : String) : String :=
  ⟨stripHyphens (collapse
    ((((((trimList s.data).map jsToLower).flatMap nfdChar).filter
      (fun c => !isCombining c)).filter isKept)))⟩

/-- Embedding of `childDocId` from `src/utils/childKey.ts`. -/
def childDocId (parentId name dob : String) : String :=
  parentId ++ "__" ++ normalizeName name ++ "__" ++ dob

/-- `String.prototype.trim` on a string (used by `addChildUnique` for the
stored `name` field). -/
def jsTrim (s : String) : String :=
  ⟨trimList s.data⟩

/-! ## The document store model

Firestore's `children` collection is an association list from document ids
to records.  `runTransaction` is a single atomic read-check-write step; the
environment decides whether the store call runs to completion or fails with
an infrastructure error (network down, permission denied, aborted commit).
`serverTimestamp()` is a server-assigned clock value `now`. -/

/-- The document written to the `children` collection: exactly the fields
set by `addChildUnique` in `src/services/children.ts`. -/
structure ChildDoc where
  parentId : String
  name : String
  dateOfBirth : String
  allergies : List String
  createdAt : Nat
  updatedAt : Nat
deriving DecidableEq, Repr

/-- The `children` collection, keyed by document id. -/
def Store := List (String × ChildDoc)

instance : DecidableEq Store := inferInstanceAs (DecidableEq (List (String × ChildDoc)))

/-- A point read (`transaction.get` / `getDoc`). -/
def Store.get? (st : Store) (k : String) : Option ChildDoc :=
  (st.find? (fun p => p.1 == k)).map Prod.snd

/-- A keyed write (`transaction.set`). -/
def Store.set (st : Store) (k : String) (d : ChildDoc) : Store :=
  (k, d) :: st

/-- `CreateChildInput` from `src/services/children.ts`; `allergies` is an
optional field defaulted to `[]` by `addChildUnique`. -/
structure CreateChildInput where
  parentId : String
  name : String
  dateOfBirth : String
  allergies : Option (List String)
deriving DecidableEq, Repr

/-- Whether the environment lets the store call run to completion
(`ok`) or injects an infrastructure failure (`infraFail`). -/
inductive TxEnv
  | ok
  | infraFail
deriving DecidableEq, Repr

/-- The two observable failure outcomes of `addChildUnique`: the
duplicate-child `Error` thrown inside the transaction (carrying its
message), and any infrastructure failure rethrown from the store. -/
inductive AddChildError
  | alreadyExists (msg : String)
  | storageFailure
deriving DecidableEq, Repr

/-- The message of the duplicate-child `Error` in `addChildUnique`. -/
def duplicateChildMsg : String :=
  "A child with this name and date of birth already exists for this parent."

/-- The document written by `transaction.set` in `addChildUnique`: the
supplied fields with the trimmed name and the defaulted allergies, plus the
two server-assigned timestamps. -/
def mkChildDoc (input : CreateChildInput) (now : Nat) : ChildDoc :=
  { parentId := input.parentId
    name := jsTrim input.name
    dateOfBirth := input.dateOfBirth
    allergies := input.allergies.getD []
    createdAt := now
    updatedAt := now }

/-- Embedding of `addChildUnique` from `src/services/children.ts`: derive
the deterministic document id, then run a transaction that reads the id,
throws the duplicate error if the document exists, and otherwise writes the
new document (with the trimmed name, the defaulted allergies and
server-assigned timestamps).  On success it returns the updated store and
the document id. -/
def addChildUnique (env : TxEnv) (st : Store) (input : CreateChildInput)
    (now : Nat) : Except AddChildError (Store × String) :=
  let docId := childDocId input.parentId input.name input.dateOfBirth
  match env with
  | .infraFail => .error .storageFailure
  | .ok =>
    match st.get? docId with
    | some _ => .error (.alreadyExists duplicateChildMsg)
    | none => .ok (st.set docId (mkChildDoc input now), docId)

/-- The store as seen after a call to `addChildUnique`: only a successful
transaction commits a write. -/
def storeAfter (st : Store) (r : Except AddChildError (Store × String)) : Store :=
  match r with
  | .ok (st', _) => st'
  | .error _ => st

/-- Embedding of `checkChildExists` from `src/services/children.ts`: a
non-transactional point read at the derived id; any error is caught and
turned into `false`. -/
def checkChildExists (env : TxEnv) (st : Store)
    (parentId name dateOfBirth : String) : Bool :=
  match env with
  | .infraFail => false
  | .ok => (st.get? (childDocId parentId name dateOfBirth)).isSome

/-! ## Derived forms of the pipeline -/

/-- The per-character action of the pipeline stages after lower-casing:
NFD-decompose, drop combining marks, drop characters outside
`[a-z0-9\s-]`. -/
def postLower (d : Char) : List Char :=
  ((nfdChar d).filter (fun e => !isCombining e)).filter isKept

/-- The per-character action of the whole character pipeline of
`normalizeName` (before separator collapsing). -/
def coreChar (c : Char) : List Char :=
  postLower (jsToLower c)

/-- Accent removal applied directly to the input: NFD-decompose and drop
the combining marks. -/
def dChar (c : Char) : List Char :=
  (nfdChar c).filter (fun e => !isCombining e)

/-- A whole string with accents decomposed and the combining marks
removed. -/
def deaccent (s : String) : String :=
  ⟨s.data.flatMap dChar⟩

/-- Two character lists differ only in the style of their separator
(whitespace/hyphen) runs: the non-separator characters agree, and
separator runs correspond nonempty-to-nonempty. -/
inductive SepEquiv : List Char → List Char → Prop
  | nil : SepEquiv [] []
  | char {c : Char} {l1 l2 : List Char} : isSep c = false → SepEquiv l1 l2 →
      SepEquiv (c :: l1) (c :: l2)
  | seps {r1 r2 l1 l2 : List Char} : r1 ≠ [] → r2 ≠ [] →
      (∀ c ∈ r1, isSep c = true) → (∀ c ∈ r2, isSep c = true) →
      SepEquiv l1 l2 → SepEquiv (r1 ++ l1) (r2 ++ l2)

/-- Characters that can appear in a finished slug: ASCII lowercase
letters, digits, and the hyphen. -/
def isSlug (d : Char) : Bool :=
  (97 ≤ d.toNat && d.toNat ≤ 122) || (48 ≤ d.toNat && d.toNat ≤ 57) || d == '-'

/-- Adjacent characters are never both separators. -/
def SepRel (a b : Char) : Prop :=
  ¬(isSep a = true ∧ isSep b = true)

/-- `normalizeName` as the specification words it, step by step: trim
leading/trailing whitespace; lower-case; decompose accented characters and
remove the combining marks; remove every character that is not an ASCII
lowercase letter, digit, space, or hyphen; collapse every run of
whitespace and/or hyphens into a single hyphen; strip leading/trailing
hyphens. -/
def normalizeNameSpec (s : String) : String :=
  let trimmed := trimList s.data
  let lowered := trimmed.map jsToLower
  let noMarks := (lowered.flatMap nfdChar).filter (fun c => !isCombining c)
  let kept := noMarks.filter isKept
  let collapsed := collapse kept
  ⟨stripHyphens collapsed⟩

/-! ## Character-table lemmas -/

theorem ws_jsToLower (c : Char) : isJsWS (jsToLower c) = isJsWS c := by
  unfold jsToLower
  split <;> first | rfl | decide

theorem sep_jsToLower (c : Char) : isSep (jsToLower c) = isSep c := by
  unfold jsToLower
  split <;> first | rfl | decide

theorem jsToLower_ws_fix (c : Char) (h : isJsWS c = true) : jsToLower c = c := by
  unfold jsToLower
  split <;> first | rfl | exact absurd h (by decide)

theorem nfdChar_ws (c : Char) (h : isJsWS c = true) : nfdChar c = [c] := by
  unfold nfdChar
  split <;> first | rfl | exact absurd h (by decide)

theorem jsToLower_combining (c : Char) (h : isCombining c = true) :
    jsToLower c = c := by
  unfold jsToLower
  split <;> first | rfl | exact absurd h (by decide)

theorem nfdChar_combining (c : Char) (h : isCombining c = true) :
    nfdChar c = [c] := by
  unfold nfdChar
  split <;> first | rfl | exact absurd h (by decide)

theorem ws_not_combining (c : Char) (h : isJsWS c = true) :
    isCombining c = false := by
  unfold isJsWS at h
  unfold isCombining
  simp only [Bool.or_eq_true, Bool.and_eq_true, beq_iff_eq, decide_eq_true_eq] at h
  simp only [Bool.and_eq_false_iff, decide_eq_false_iff_not, Nat.not_le]
  omega

theorem ws_kept (c : Char) (h : isJsWS c = true) : isKept c = true := by
  simp [isKept, h]

theorem ws_sep (c : Char) (h : isJsWS c = true) : isSep c = true := by
  simp [isSep, h]

theorem coreChar_ws (c : Char) (h : isJsWS c = true) : coreChar c = [c] := by
  simp [coreChar, postLower, jsToLower_ws_fix c h, nfdChar_ws c h,
    ws_not_combining c h, ws_kept c h]

/-! ## Factoring the character pipeline through `coreChar` -/

theorem pipe_core (l : List Char) :
    ((((l.map jsToLower).flatMap nfdChar).filter
      (fun c => !isCombining c)).filter isKept) = l.flatMap coreChar := by
  rw [List.filter_flatMap, List.filter_flatMap, List.flatMap_map]
  exact List.flatMap_congr (fun x _ => rfl)

theorem normalizeName_core (s : String) :
    normalizeName s =
      ⟨stripHyphens (collapse ((trimList s.data).flatMap coreChar))⟩ := by
  simp only [normalizeName, pipe_core]

/-! ## Collapse/strip algebra -/

theorem collapseAux_true_sep {r : List Char} (h : ∀ c ∈ r, isSep c = true)
    (m : List Char) : collapseAux true (r ++ m) = collapseAux true m := by
  induction r with
  | nil => rfl
  | cons c r ih =>
    have hc : isSep c = true := h c (by simp)
    simp only [List.cons_append, collapseAux, hc, if_true]
    exact ih (fun d hd => h d (by simp [hd]))

theorem strip_cons_hyphen (x : List Char) :
    stripHyphens ('-' :: x) = stripHyphens x := by
  simp [stripHyphens]

theorem strip_collapseAux_true_false (m : List Char) :
    stripHyphens (collapseAux true m) = stripHyphens (collapseAux false m) := by
  cases m with
  | nil => rfl
  | cons c rest =>
    cases hc : isSep c with
    | true =>
      simp only [collapseAux, hc, if_true, ite_true]
      exact (strip_cons_hyphen _).symm
    | false => simp [collapseAux, hc]

theorem strip_collapse_sep_prefix {r : List Char} (h : ∀ c ∈ r, isSep c = true)
    (m : List Char) :
    stripHyphens (collapse (r ++ m)) = stripHyphens (collapse m) := by
  cases r with
  | nil => rfl
  | cons c r =>
    have hc : isSep c = true := h c (by simp)
    have hr : ∀ d ∈ r, isSep d = true := fun d hd => h d (by simp [hd])
    simp only [collapse, List.cons_append, collapseAux, hc, if_true, ite_true,
      Bool.false_eq_true, if_false, List.append_eq]
    rw [collapseAux_true_sep hr, strip_cons_hyphen, strip_collapseAux_true_false]

theorem collapseAux_append_sep {r : List Char} (h : ∀ c ∈ r, isSep c = true)
    (m : List Char) : ∀ b,
    collapseAux b (m ++ r) = collapseAux b m ∨
    collapseAux b (m ++ r) = collapseAux b m ++ ['-'] := by
  induction m with
  | nil =>
    intro b
    cases r with
    | nil => exact Or.inl rfl
    | cons c r =>
      have hc : isSep c = true := h c (by simp)
      have hr : ∀ d ∈ r, isSep d = true := fun d hd => h d (by simp [hd])
      have htail : collapseAux true r = [] := by
        have := collapseAux_true_sep hr ([] : List Char)
        simpa using this
      cases b with
      | true =>
        refine Or.inl ?_
        simp [collapseAux, hc, htail]
      | false =>
        refine Or.inr ?_
        simp [collapseAux, hc, htail]
  | cons c m ih =>
    intro b
    cases hc : isSep c with
    | true =>
      cases b with
      | true =>
        simp only [List.cons_append, collapseAux, hc, if_true, ite_true,
          List.append_eq]
        exact ih true
      | false =>
        simp only [List.cons_append, collapseAux, hc, if_true, ite_true,
          Bool.false_eq_true, if_false, List.append_eq]
        rcases ih true with h1 | h1
        · exact Or.inl (by simp [h1])
        · exact Or.inr (by simp [h1])
    | false =>
      simp only [List.cons_append, collapseAux, hc, Bool.false_eq_true,
        if_false, List.append_eq]
      rcases ih false with h1 | h1
      · exact Or.inl (by simp [h1])
      · exact Or.inr (by simp [h1])

theorem strip_append_hyphen (x : List Char) :
    stripHyphens (x ++ ['-']) = stripHyphens x := by
  unfold stripHyphens
  rw [List.dropWhile_append]
  cases hx : (x.dropWhile (fun c => c == '-')).isEmpty with
  | true =>
    have hx' : x.dropWhile (fun c => c == '-') = [] := by simpa using hx
    simp [hx']
  | false =>
    simp only [hx, Bool.false_eq_true, if_false, List.reverse_append]
    simp

theorem strip_collapse_sep_suffix {r : List Char} (h : ∀ c ∈ r, isSep c = true)
    (m : List Char) :
    stripHyphens (collapse (m ++ r)) = stripHyphens (collapse m) := by
  rcases collapseAux_append_sep h m false with h1 | h1
  · rw [collapse, h1]; rfl
  · rw [collapse, h1, strip_append_hyphen]; rfl

/-! ## Trimming is subsumed by collapsing and stripping -/

theorem trim_decomp (l : List Char) :
    ∃ pre suf, (∀ c ∈ pre, isJsWS c = true) ∧ (∀ c ∈ suf, isJsWS c = true) ∧
      l = pre ++ trimList l ++ suf := by
  refine ⟨l.takeWhile isJsWS, ((l.dropWhile isJsWS).reverse.takeWhile isJsWS).reverse,
    fun c hc => List.mem_takeWhile_imp hc,
    fun c hc => List.mem_takeWhile_imp (List.mem_reverse.mp hc), ?_⟩
  unfold trimList
  conv_lhs => rw [← List.takeWhile_append_dropWhile (p := isJsWS) (l := l)]
  rw [List.append_assoc]
  congr 1
  conv_lhs =>
    rw [← List.reverse_reverse (l.dropWhile isJsWS),
      ← List.takeWhile_append_dropWhile (p := isJsWS)
        (l := (l.dropWhile isJsWS).reverse)]
  rw [List.reverse_append]

theorem flatMap_coreChar_ws {r : List Char} (h : ∀ c ∈ r, isJsWS c = true) :
    r.flatMap coreChar = r := by
  rw [List.flatMap_congr (g := fun c => [c]) (fun c hc => coreChar_ws c (h c hc))]
  exact List.flatMap_singleton' r

theorem norm_notrim (l : List Char) :
    stripHyphens (collapse ((trimList l).flatMap coreChar)) =
      stripHyphens (collapse (l.flatMap coreChar)) := by
  obtain ⟨pre, suf, hpre, hsuf, hdec⟩ := trim_decomp l
  conv_rhs => rw [hdec]
  rw [List.flatMap_append, List.flatMap_append, flatMap_coreChar_ws hpre,
    flatMap_coreChar_ws hsuf, List.append_assoc,
    strip_collapse_sep_prefix (fun c hc => ws_sep c (hpre c hc)),
    strip_collapse_sep_suffix (fun c hc => ws_sep c (hsuf c hc))]

/-- `normalizeName` with the trimming step absorbed: strip-collapse of the
character pipeline applied to the raw input. -/
theorem normalizeName_flat (s : String) :
    normalizeName s = ⟨stripHyphens (collapse (s.data.flatMap coreChar))⟩ := by
  rw [normalizeName_core, norm_notrim]

/-! ## Case and accent invariance -/

theorem normalizeName_case_invariant {s t : String}
    (h : s.data.map jsToLower = t.data.map jsToLower) :
    normalizeName s = normalizeName t := by
  rw [normalizeName_flat, normalizeName_flat]
  have hs : ∀ u : List Char, u.flatMap coreChar = (u.map jsToLower).flatMap postLower :=
    fun u => (List.flatMap_map jsToLower postLower u).symm
  rw [hs s.data, hs t.data, h]

theorem core_dChar (c : Char) : (dChar c).flatMap coreChar = coreChar c := by
  unfold dChar nfdChar
  split
  case _ => decide
  case _ => decide
  case _ => decide
  case _ => decide
  case _ => decide
  case _ => decide
  case _ => decide
  case _ => decide
  case _ => decide
  case _ => decide
  case _ => decide
  case _ => decide
  case _ => decide
  case _ => decide
  case _ => decide
  case _ => decide
  case _ => decide
  case _ => decide
  case _ => decide
  case _ => decide
  case _ => decide
  case _ => decide
  case _ => decide
  case _ => decide
  case _ => decide
  case _ => decide
  case _ => decide
  case _ => decide
  case _ => decide
  case _ => decide
  case _ => decide
  case _ => decide
  case _ => decide
  case _ => decide
  case _ => decide
  case _ => decide
  case _ => decide
  case _ => decide
  case _ => decide
  case _ => decide
  case _ => decide
  case _ => decide
  case _ => decide
  case _ => decide
  case _ => decide
  case _ => decide
  case _ => decide
  case _ => decide
  case _ => decide
  case _ => decide
  case _ => decide
  case _ => decide
  case _ => decide
  case _ =>
    cases hcomb : isCombining c with
    | true =>
      simp [coreChar, postLower, jsToLower_combining c hcomb,
        nfdChar_combining c hcomb, hcomb]
    | false => simp [coreChar, postLower, hcomb, List.filter_filter]

theorem normalizeName_deaccent (s : String) :
    normalizeName (deaccent s) = normalizeName s := by
  have hd : (deaccent s).data = s.data.flatMap dChar := rfl
  have he : (s.data.flatMap dChar).flatMap coreChar = s.data.flatMap coreChar := by
    rw [List.flatMap_assoc]
    exact List.flatMap_congr (fun c _ => core_dChar c)
  rw [normalizeName_flat, normalizeName_flat, hd, he]

/-! ## Separator-style invariance -/

theorem coreChar_sep {c : Char} (h : isSep c = true) : coreChar c = [c] := by
  have h' : isJsWS c = true ∨ c = '-' := by simpa [isSep] using h
  rcases h' with hws | rfl
  · exact coreChar_ws c hws
  · decide

theorem nfdChar_mem_sep {d e : Char} (he : e ∈ nfdChar d) (hd : isSep d = false) :
    isSep e = false := by
  unfold nfdChar at he
  split at he <;> simp_all <;> rcases he with rfl | rfl <;> decide

theorem coreChar_mem_nonsep {c d : Char} (hc : isSep c = false)
    (hd : d ∈ coreChar c) : isSep d = false := by
  have hd' : d ∈ nfdChar (jsToLower c) :=
    (List.mem_filter.mp (List.mem_filter.mp hd).1).1
  have hl : isSep (jsToLower c) = false := by rw [sep_jsToLower]; exact hc
  exact nfdChar_mem_sep hd' hl

theorem sepEquiv_append_nonsep {m t1 t2 : List Char}
    (hm : ∀ c ∈ m, isSep c = false) (h : SepEquiv t1 t2) :
    SepEquiv (m ++ t1) (m ++ t2) := by
  induction m with
  | nil => simpa using h
  | cons c m ih =>
    exact SepEquiv.char (hm c (by simp)) (ih (fun d hd => hm d (by simp [hd])))

theorem flatMap_coreChar_sep {r : List Char} (h : ∀ c ∈ r, isSep c = true) :
    r.flatMap coreChar = r := by
  rw [List.flatMap_congr (g := fun c => [c]) (fun c hc => coreChar_sep (h c hc))]
  exact List.flatMap_singleton' r

theorem sepEquiv_core {l1 l2 : List Char} (h : SepEquiv l1 l2) :
    SepEquiv (l1.flatMap coreChar) (l2.flatMap coreChar) := by
  induction h with
  | nil => exact SepEquiv.nil
  | char hc _ ih =>
    rw [List.flatMap_cons, List.flatMap_cons]
    exact sepEquiv_append_nonsep (fun d hd => coreChar_mem_nonsep hc hd) ih
  | seps hne1 hne2 h1 h2 _ ih =>
    rw [List.flatMap_append, List.flatMap_append, flatMap_coreChar_sep h1,
      flatMap_coreChar_sep h2]
    exact SepEquiv.seps hne1 hne2 h1 h2 ih

theorem collapseAux_sep_run {r : List Char} (hne : r ≠ [])
    (h : ∀ c ∈ r, isSep c = true) (b : Bool) (l : List Char) :
    collapseAux b (r ++ l) = (if b then [] else ['-']) ++ collapseAux true l := by
  cases r with
  | nil => exact absurd rfl hne
  | cons c r =>
    have hc : isSep c = true := h c (by simp)
    have hr : ∀ d ∈ r, isSep d = true := fun d hd => h d (by simp [hd])
    cases b with
    | true =>
      simp only [List.cons_append, collapseAux, hc, if_true, ite_true,
        List.append_eq, List.nil_append]
      exact collapseAux_true_sep hr l
    | false =>
      simp only [List.cons_append, collapseAux, hc, if_true, ite_true,
        Bool.false_eq_true, if_false, List.append_eq, List.singleton_append,
        List.nil_append]
      rw [collapseAux_true_sep hr l]

theorem collapseAux_sepEquiv {m1 m2 : List Char} (h : SepEquiv m1 m2) :
    ∀ b, collapseAux b m1 = collapseAux b m2 := by
  induction h with
  | nil => intro b; rfl
  | char hc _ ih =>
    intro b
    simp only [collapseAux, hc, Bool.false_eq_true, if_false]
    rw [ih false]
  | seps hne1 hne2 h1 h2 _ ih =>
    intro b
    rw [collapseAux_sep_run hne1 h1 b, collapseAux_sep_run hne2 h2 b, ih true]

theorem normalizeName_sepEquiv {s t : String} (h : SepEquiv s.data t.data) :
    normalizeName s = normalizeName t := by
  rw [normalizeName_flat, normalizeName_flat]
  have := collapseAux_sepEquiv (sepEquiv_core h) false
  rw [collapse, this]
  rfl

/-! ## Empty and all-punctuation inputs -/

theorem strip_collapse_all_sep {m : List Char} (h : ∀ c ∈ m, isSep c = true) :
    stripHyphens (collapse m) = [] := by
  cases hm : m with
  | nil => rfl
  | cons c m' =>
    have h2 : collapseAux false ((c :: m') ++ []) =
        (if false then [] else ['-']) ++ collapseAux true [] :=
      collapseAux_sep_run (by simp) (by rw [← hm]; exact fun d hd => h d (hm ▸ hd))
        false []
    rw [collapse, show c :: m' = (c :: m') ++ [] by simp, h2]
    decide

theorem normalizeName_erasable {s : String}
    (h : ∀ c ∈ s.data, (coreChar c).all isSep = true) : normalizeName s = "" := by
  rw [normalizeName_flat]
  have hall : ∀ d ∈ s.data.flatMap coreChar, isSep d = true := by
    intro d hd
    rcases List.mem_flatMap.mp hd with ⟨c, hc, hdc⟩
    exact List.all_eq_true.mp (h c hc) d hdc
  rw [strip_collapse_all_sep hall]

/-! ## The output character set and idempotence -/

theorem char_eq_iff_toNat {d e : Char} : d = e ↔ d.toNat = e.toNat := by
  constructor
  · intro h; rw [h]
  · intro h
    have := congrArg Char.ofNat h
    rwa [Char.ofNat_toNat, Char.ofNat_toNat] at this

theorem slug_not_ws {d : Char} (h : isSlug d = true) : isJsWS d = false := by
  unfold isSlug at h
  unfold isJsWS
  simp only [Bool.or_eq_true, Bool.and_eq_true, beq_iff_eq, decide_eq_true_eq,
    char_eq_iff_toNat, show ('-').toNat = 45 from by decide] at h
  simp only [Bool.or_eq_false_iff, Bool.and_eq_false_iff, beq_eq_false_iff_ne,
    ne_eq, decide_eq_false_iff_not, Nat.not_le]
  omega

theorem slug_not_comb {d : Char} (h : isSlug d = true) : isCombining d = false := by
  unfold isSlug at h
  unfold isCombining
  simp only [Bool.or_eq_true, Bool.and_eq_true, beq_iff_eq, decide_eq_true_eq,
    char_eq_iff_toNat, show ('-').toNat = 45 from by decide] at h
  simp only [Bool.and_eq_false_iff, decide_eq_false_iff_not, Nat.not_le]
  omega

theorem slug_kept {d : Char} (h : isSlug d = true) : isKept d = true := by
  unfold isSlug at h
  unfold isKept
  simp only [Bool.or_eq_true] at h ⊢
  tauto

theorem kept_nonsep_slug {d : Char} (hk : isKept d = true) (hs : isSep d = false) :
    isSlug d = true := by
  unfold isSep at hs
  simp only [Bool.or_eq_false_iff] at hs
  obtain ⟨hws, hh⟩ := hs
  unfold isKept at hk
  unfold isSlug
  rw [hws, hh] at hk
  rw [hh]
  simpa using hk

theorem jsToLower_slug {d : Char} (h : isSlug d = true) : jsToLower d = d := by
  unfold jsToLower
  split <;> first | rfl | exact absurd h (by decide)

theorem nfdChar_slug {d : Char} (h : isSlug d = true) : nfdChar d = [d] := by
  unfold nfdChar
  split <;> first | rfl | exact absurd h (by decide)

theorem coreChar_slug {d : Char} (h : isSlug d = true) : coreChar d = [d] := by
  simp [coreChar, postLower, jsToLower_slug h, nfdChar_slug h, slug_not_comb h,
    slug_kept h]

theorem core_mem_kept {l : List Char} {d : Char}
    (hd : d ∈ l.flatMap coreChar) : isKept d = true := by
  rcases List.mem_flatMap.mp hd with ⟨c, _, hdc⟩
  exact (List.mem_filter.mp hdc).2

theorem collapseAux_mem {d : Char} : ∀ {m : List Char} {b : Bool},
    d ∈ collapseAux b m → d = '-' ∨ (d ∈ m ∧ isSep d = false)
  | [], b, h => by simp [collapseAux] at h
  | c :: m', b, h => by
    cases hc : isSep c with
    | false =>
      rw [collapseAux, hc, if_neg (by simp)] at h
      rcases List.mem_cons.mp h with rfl | h'
      · exact Or.inr ⟨by simp, hc⟩
      · rcases collapseAux_mem h' with h2 | ⟨h2, h3⟩
        · exact Or.inl h2
        · exact Or.inr ⟨by simp [h2], h3⟩
    | true =>
      rw [collapseAux, hc, if_pos rfl] at h
      cases b with
      | true =>
        rcases collapseAux_mem h with h2 | ⟨h2, h3⟩
        · exact Or.inl h2
        · exact Or.inr ⟨by simp [h2], h3⟩
      | false =>
        rcases List.mem_cons.mp h with rfl | h'
        · exact Or.inl rfl
        · rcases collapseAux_mem h' with h2 | ⟨h2, h3⟩
          · exact Or.inl h2
          · exact Or.inr ⟨by simp [h2], h3⟩

theorem collapse_chain : ∀ (m : List Char) (b : Bool),
    List.Chain' SepRel (collapseAux b m) ∧
      (b = true → ∀ d ∈ (collapseAux b m).head?, isSep d = false)
  | [], b => by constructor <;> simp [collapseAux]
  | c :: m', b => by
    cases hc : isSep c with
    | true =>
      cases b with
      | true =>
        have ih := collapse_chain m' true
        constructor
        · simpa [collapseAux, hc] using ih.1
        · intro _
          simpa [collapseAux, hc] using ih.2 rfl
      | false =>
        have ih := collapse_chain m' true
        constructor
        · simp only [collapseAux, hc, if_true, ite_true]
          refine List.Chain'.cons' ih.1 ?_
          intro y hy
          have := ih.2 rfl y hy
          exact fun ⟨_, h2⟩ => by rw [this] at h2; exact absurd h2 (by simp)
        · intro hb; exact absurd hb (by simp)
    | false =>
      have ih := collapse_chain m' false
      constructor
      · simp only [collapseAux, hc, Bool.false_eq_true, if_false]
        refine List.Chain'.cons' ih.1 ?_
        intro y _
        exact fun ⟨h1, _⟩ => by rw [hc] at h1; exact absurd h1 (by simp)
      · intro _
        simp only [collapseAux, hc, Bool.false_eq_true, if_false,
          List.head?_cons, Option.mem_def, Option.some.injEq]
        intro d hd
        rw [← hd]
        exact hc

theorem chain_reverse_seprel {x : List Char} (h : List.Chain' SepRel x) :
    List.Chain' SepRel x.reverse := by
  rw [List.chain'_reverse]
  exact h.imp (fun a b hab => fun h2 => hab ⟨h2.2, h2.1⟩)

theorem chain_stripHyphens {l : List Char} (h : List.Chain' SepRel l) :
    List.Chain' SepRel (stripHyphens l) := by
  unfold stripHyphens
  apply chain_reverse_seprel
  apply List.Chain'.suffix _ (List.dropWhile_suffix _)
  apply chain_reverse_seprel
  exact List.Chain'.suffix h (List.dropWhile_suffix _)

theorem head?_dropWhile_false {p : Char → Bool} {l : List Char} {d : Char}
    (hd : (l.dropWhile p).head? = some d) : p d = false := by
  have h := List.head?_dropWhile_not p l
  rw [hd] at h
  exact h

theorem collapseAux_fix {l : List Char} (hch : List.Chain' SepRel l)
    (hh : ∀ d ∈ l, isSep d = true → d = '-') :
    collapseAux false l = l ∧
      ((∀ d ∈ l.head?, isSep d = false) → collapseAux true l = l) := by
  induction l with
  | nil => exact ⟨rfl, fun _ => rfl⟩
  | cons c rest ih =>
    have hch' : List.Chain' SepRel rest := hch.tail
    have hh' : ∀ d ∈ rest, isSep d = true → d = '-' :=
      fun d hd => hh d (by simp [hd])
    obtain ⟨ih1, ih2⟩ := ih hch' hh'
    cases hc : isSep c with
    | false =>
      constructor
      · simp [collapseAux, hc, ih1]
      · intro _
        simp [collapseAux, hc, ih1]
    | true =>
      have hc' : c = '-' := hh c (by simp) hc
      have hrest : ∀ d ∈ rest.head?, isSep d = false := by
        intro d hd
        have hrel := hch.rel_head? hd
        by_contra hcon
        exact hrel ⟨hc, by simpa using hcon⟩
      constructor
      · rw [collapseAux, hc, if_pos rfl, if_neg (by simp), ih2 hrest, hc']
      · intro hhead
        have := hhead c (by simp)
        rw [hc] at this
        exact absurd this (by simp)

theorem stripHyphens_fix {l : List Char}
    (hh : ∀ d ∈ l.head?, (d == '-') = false)
    (ht : ∀ d ∈ l.getLast?, (d == '-') = false) : stripHyphens l = l := by
  have h1 : l.dropWhile (fun c => c == '-') = l := by
    cases l with
    | nil => rfl
    | cons c rest => exact List.dropWhile_cons_of_neg (by simp [hh c rfl])
  have h2 : l.reverse.dropWhile (fun c => c == '-') = l.reverse := by
    cases hr : l.reverse with
    | nil => rfl
    | cons c rest =>
      refine List.dropWhile_cons_of_neg ?_
      have : l.getLast? = some c := by
        rw [← List.head?_reverse, hr, List.head?_cons]
      simp [ht c this]
  unfold stripHyphens
  rw [h1, h2, List.reverse_reverse]

theorem stripHyphens_getLast {l : List Char} {d : Char}
    (hd : (stripHyphens l).getLast? = some d) : (d == '-') = false := by
  unfold stripHyphens at hd
  rw [List.getLast?_reverse] at hd
  simpa using head?_dropWhile_false (p := fun c => c == '-') hd

theorem stripHyphens_head {l : List Char} {d : Char}
    (hd : (stripHyphens l).head? = some d) : (d == '-') = false := by
  unfold stripHyphens at hd
  rw [List.head?_reverse] at hd
  obtain ⟨t, ht⟩ :=
    List.dropWhile_suffix (l := (l.dropWhile (fun c => c == '-')).reverse)
      (fun c => c == '-')
  have h2 : ((l.dropWhile (fun c => c == '-')).reverse).getLast? = some d := by
    rw [← ht, List.getLast?_append, hd]
    rfl
  rw [List.getLast?_reverse] at h2
  simpa using head?_dropWhile_false (p := fun c => c == '-') h2

theorem mem_of_mem_stripHyphens {z : List Char} {d : Char}
    (hd : d ∈ stripHyphens z) : d ∈ z := by
  unfold stripHyphens at hd
  rw [List.mem_reverse] at hd
  have hd2 := (List.dropWhile_sublist _).subset hd
  rw [List.mem_reverse] at hd2
  exact (List.dropWhile_sublist _).subset hd2

theorem slug_sep_hyphen {d : Char} (hs : isSlug d = true) (hp : isSep d = true) :
    d = '-' := by
  unfold isSep at hp
  rw [slug_not_ws hs] at hp
  simpa using hp

theorem normalizeName_strip_collapse_fix (l : List Char) :
    normalizeName ⟨stripHyphens (collapse (l.flatMap coreChar))⟩ =
      ⟨stripHyphens (collapse (l.flatMap coreChar))⟩ := by
  have hslug : ∀ d ∈ stripHyphens (collapse (l.flatMap coreChar)),
      isSlug d = true := by
    intro d hd
    have hd1 := mem_of_mem_stripHyphens hd
    rcases collapseAux_mem hd1 with rfl | ⟨hd2, hd3⟩
    · decide
    · exact kept_nonsep_slug (core_mem_kept hd2) hd3
  have hchain : List.Chain' SepRel (stripHyphens (collapse (l.flatMap coreChar))) :=
    chain_stripHyphens (collapse_chain (l.flatMap coreChar) false).1
  have hsep' : ∀ d ∈ stripHyphens (collapse (l.flatMap coreChar)),
      isSep d = true → d = '-' :=
    fun d hd hsepd => slug_sep_hyphen (hslug d hd) hsepd
  rw [normalizeName_flat]
  congr 1
  have hdata : (⟨stripHyphens (collapse (l.flatMap coreChar))⟩ : String).data
      = stripHyphens (collapse (l.flatMap coreChar)) := rfl
  rw [hdata,
    List.flatMap_congr (g := fun c => [c]) (fun c hc => coreChar_slug (hslug c hc)),
    List.flatMap_singleton', collapse, (collapseAux_fix hchain hsep').1]
  exact stripHyphens_fix
    (fun d hd => stripHyphens_head (Option.mem_def.mp hd))
    (fun d hd => stripHyphens_getLast (Option.mem_def.mp hd))

theorem normalizeName_idem (s : String) :
    normalizeName (normalizeName s) = normalizeName s := by
  rw [normalizeName_flat s]
  exact normalizeName_strip_collapse_fix s.data

/-! ## Store lemmas -/

theorem Store.get?_set_self (st : Store) (k : String) (d : ChildDoc) :
    (st.set k d).get? k = some d := by
  simp [Store.get?, Store.set, List.find?]

theorem Store.get?_set_ne (st : Store) {k k' : String} (d : ChildDoc)
    (h : k ≠ k') : (st.set k d).get? k' = st.get? k' := by
  simp only [Store.get?, Store.set, List.find?]
  rw [show (k == k') = false from beq_eq_false_iff_ne.mpr h]

theorem addChildUnique_ok_of_absent (st : Store) (inp : CreateChildInput)
    (now : Nat)
    (h : st.get? (childDocId inp.parentId inp.name inp.dateOfBirth) = none) :
    addChildUnique .ok st inp now = .ok
      (st.set (childDocId inp.parentId inp.name inp.dateOfBirth)
        (mkChildDoc inp now),
        childDocId inp.parentId inp.name inp.dateOfBirth) := by
  simp only [addChildUnique, h]

theorem addChildUnique_error_of_present (st : Store) (inp : CreateChildInput)
    (now : Nat) (d : ChildDoc)
    (h : st.get? (childDocId inp.parentId inp.name inp.dateOfBirth) = some d) :
    addChildUnique .ok st inp now = .error (.alreadyExists duplicateChildMsg) := by
  simp only [addChildUnique, h]

/-! ## The claims -/

/-- Claim C2: `childDocId` returns exactly
`parentId ++ "__" ++ normalizeName name ++ "__" ++ dateOfBirth`; in
particular for parent `P1` and DOB `2020-05-15` both the name `Jean-Luc`
and the name `"  Jean   Luc  "` give `P1__jean-luc__2020-05-15`. -/
theorem claim2_childDocId_format :
    (∀ parentId name dob : String,
      childDocId parentId name dob =
        parentId ++ "__" ++ normalizeName name ++ "__" ++ dob) ∧
    childDocId "P1" "Jean-Luc" "2020-05-15" = "P1__jean-luc__2020-05-15" ∧
    childDocId "P1" "  Jean   Luc  " "2020-05-15" = "P1__jean-luc__2020-05-15" :=
  ⟨fun _ _ _ => rfl, by decide, by decide⟩

/-- Claim C6: `checkChildExists` never raises: it is a total boolean
function that returns `false` on infrastructure failure and otherwise the
result of the point read at the derived key. -/
theorem claim6_checkChildExists_total :
    (∀ (st : Store) (p n d : String),
      checkChildExists .infraFail st p n d = false) ∧
    (∀ (st : Store) (p n d : String),
      checkChildExists .ok st p n d = (st.get? (childDocId p n d)).isSome) :=
  ⟨fun _ _ _ _ => rfl, fun _ _ _ _ => rfl⟩

/-- Claim C7: `normalizeName` is idempotent. -/
theorem claim7_normalizeName_idempotent (s : String) :
    normalizeName (normalizeName s) = normalizeName s :=
  normalizeName_idem s

/-- Claim C3: when no record exists at the derived key, `addChildUnique`
succeeds and returns the derived key; a second sequential call with the
same `(parentId, name, dateOfBirth)` fails with the duplicate error, and
the store is left unchanged by the failed call (nothing duplicated or
overwritten). -/
theorem claim3_sequential_create (st : Store) (inp : CreateChildInput)
    (now now2 : Nat)
    (h : st.get? (childDocId inp.parentId inp.name inp.dateOfBirth) = none) :
    ∃ st', addChildUnique .ok st inp now =
        .ok (st', childDocId inp.parentId inp.name inp.dateOfBirth) ∧
      addChildUnique .ok st' inp now2 =
        .error (.alreadyExists duplicateChildMsg) ∧
      storeAfter st' (addChildUnique .ok st' inp now2) = st' := by
  refine ⟨_, addChildUnique_ok_of_absent st inp now h, ?_, ?_⟩
  · exact addChildUnique_error_of_present _ inp now2 (mkChildDoc inp now)
      (Store.get?_set_self st _ _)
  · rw [addChildUnique_error_of_present _ inp now2 (mkChildDoc inp now)
      (Store.get?_set_self st _ _)]
    rfl

theorem claim3_witness :
    ∃ st', addChildUnique .ok [] ⟨"P1", "Ann", "2020-01-01", none⟩ 0 =
        .ok (st', childDocId "P1" "Ann" "2020-01-01") ∧
      addChildUnique .ok st' ⟨"P1", "Ann", "2020-01-01", none⟩ 1 =
        .error (.alreadyExists duplicateChildMsg) ∧
      storeAfter st' (addChildUnique .ok st' ⟨"P1", "Ann", "2020-01-01", none⟩ 1)
        = st' :=
  claim3_sequential_create [] ⟨"P1", "Ann", "2020-01-01", none⟩ 0 1 rfl

/-- Claim C4: a failing `addChildUnique` fails with exactly one of two
distinguishable error kinds; the duplicate error is raised exactly when the
transaction runs and finds a record at the derived key, and everything else
surfaces as the infrastructure error. -/
theorem claim4_error_kinds (env : TxEnv) (st : Store) (inp : CreateChildInput)
    (now : Nat) :
    ((∃ m, addChildUnique env st inp now = .error (.alreadyExists m)) ↔
      env = .ok ∧
        (st.get? (childDocId inp.parentId inp.name inp.dateOfBirth)).isSome
          = true) ∧
    (∀ e, addChildUnique env st inp now = .error e →
      e = .alreadyExists duplicateChildMsg ∨ e = .storageFailure) := by
  cases env with
  | infraFail =>
    constructor
    · constructor
      · rintro ⟨m, hm⟩
        exact absurd hm (by simp [addChildUnique])
      · rintro ⟨h1, _⟩
        exact absurd h1 (by simp)
    · intro e he
      refine Or.inr ?_
      have : (Except.error .storageFailure :
          Except AddChildError (Store × String)) = .error e := by
        rw [← he]
        rfl
      simpa using this.symm
  | ok =>
    cases hg : st.get? (childDocId inp.parentId inp.name inp.dateOfBirth) with
    | none =>
      constructor
      · constructor
        · rintro ⟨m, hm⟩
          rw [addChildUnique_ok_of_absent st inp now hg] at hm
          exact absurd hm (by simp)
        · rintro ⟨_, h2⟩
          exact absurd h2 (by simp)
      · intro e he
        rw [addChildUnique_ok_of_absent st inp now hg] at he
        exact absurd he (by simp)
    | some d =>
      constructor
      · constructor
        · intro _
          exact ⟨rfl, rfl⟩
        · intro _
          exact ⟨duplicateChildMsg,
            addChildUnique_error_of_present st inp now d hg⟩
      · intro e he
        rw [addChildUnique_error_of_present st inp now d hg] at he
        refine Or.inl ?_
        simpa using he.symm

theorem claim4_witness :
    ∃ m, addChildUnique .ok
        [("P1__ann__2020-01-01", mkChildDoc ⟨"P1", "Ann", "2020-01-01", none⟩ 0)]
        ⟨"P1", "Ann", "2020-01-01", none⟩ 5 = .error (.alreadyExists m) :=
  (claim4_error_kinds .ok
    [("P1__ann__2020-01-01", mkChildDoc ⟨"P1", "Ann", "2020-01-01", none⟩ 0)]
    ⟨"P1", "Ann", "2020-01-01", none⟩ 5).1.mpr ⟨rfl, by decide⟩

/-- Claim C5: two concurrent `addChildUnique` calls for the same
`(parentId, name, dateOfBirth)` tuple are serialized by the store's
transaction primitive; under either serialization exactly one call
succeeds, the other fails with the duplicate error, and the failed call
changes nothing. -/
theorem claim5_concurrent_create (st : Store) (i1 i2 : CreateChildInput)
    (t1 t2 : Nat) (hp : i2.parentId = i1.parentId) (hn : i2.name = i1.name)
    (hd : i2.dateOfBirth = i1.dateOfBirth)
    (h : st.get? (childDocId i1.parentId i1.name i1.dateOfBirth) = none) :
    (∃ st1, addChildUnique .ok st i1 t1 =
        .ok (st1, childDocId i1.parentId i1.name i1.dateOfBirth) ∧
      addChildUnique .ok st1 i2 t2 = .error (.alreadyExists duplicateChildMsg) ∧
      storeAfter st1 (addChildUnique .ok st1 i2 t2) = st1) ∧
    (∃ st2, addChildUnique .ok st i2 t2 =
        .ok (st2, childDocId i1.parentId i1.name i1.dateOfBirth) ∧
      addChildUnique .ok st2 i1 t1 = .error (.alreadyExists duplicateChildMsg) ∧
      storeAfter st2 (addChildUnique .ok st2 i1 t1) = st2) := by
  have hkey : childDocId i2.parentId i2.name i2.dateOfBirth =
      childDocId i1.parentId i1.name i1.dateOfBirth := by
    rw [hp, hn, hd]
  constructor
  · refine ⟨_, addChildUnique_ok_of_absent st i1 t1 h, ?_, ?_⟩
    · refine addChildUnique_error_of_present _ i2 t2 (mkChildDoc i1 t1) ?_
      rw [hkey]
      exact Store.get?_set_self st _ _
    · rw [addChildUnique_error_of_present _ i2 t2 (mkChildDoc i1 t1)
        (by rw [hkey]; exact Store.get?_set_self st _ _)]
      rfl
  · have h2 : st.get? (childDocId i2.parentId i2.name i2.dateOfBirth) = none := by
      rw [hkey]; exact h
    have hok := addChildUnique_ok_of_absent st i2 t2 h2
    rw [hkey] at hok
    refine ⟨_, hok, ?_, ?_⟩
    · refine addChildUnique_error_of_present _ i1 t1 (mkChildDoc i2 t2) ?_
      exact Store.get?_set_self st _ _
    · rw [addChildUnique_error_of_present _ i1 t1 (mkChildDoc i2 t2)
        (Store.get?_set_self st _ _)]
      rfl

theorem claim5_witness :
    (∃ st1, addChildUnique .ok [] ⟨"P1", "Ann", "2020-01-01", none⟩ 0 =
        .ok (st1, childDocId "P1" "Ann" "2020-01-01") ∧
      addChildUnique .ok st1 ⟨"P1", "Ann", "2020-01-01", some ["nuts"]⟩ 1 =
        .error (.alreadyExists duplicateChildMsg) ∧
      storeAfter st1
        (addChildUnique .ok st1 ⟨"P1", "Ann", "2020-01-01", some ["nuts"]⟩ 1)
        = st1) ∧
    (∃ st2, addChildUnique .ok [] ⟨"P1", "Ann", "2020-01-01", some ["nuts"]⟩ 1 =
        .ok (st2, childDocId "P1" "Ann" "2020-01-01") ∧
      addChildUnique .ok st2 ⟨"P1", "Ann", "2020-01-01", none⟩ 0 =
        .error (.alreadyExists duplicateChildMsg) ∧
      storeAfter st2
        (addChildUnique .ok st2 ⟨"P1", "Ann", "2020-01-01", none⟩ 0)
        = st2) :=
  claim5_concurrent_create [] ⟨"P1", "Ann", "2020-01-01", none⟩
    ⟨"P1", "Ann", "2020-01-01", some ["nuts"]⟩ 0 1 rfl rfl rfl rfl

/-- Claim C8: the derived keys for two distinct dates of birth (same
parent, same name) are distinct, so registering both children gives two
independent records and neither create can fail with the duplicate error
because of the other. -/
theorem claim8_distinct_dob_independent (p n d1 d2 : String) (hne : d1 ≠ d2) :
    childDocId p n d1 ≠ childDocId p n d2 ∧
    (∀ (st : Store) (now1 now2 : Nat),
      st.get? (childDocId p n d1) = none →
      st.get? (childDocId p n d2) = none →
      ∃ st1 st2,
        addChildUnique .ok st ⟨p, n, d1, none⟩ now1 =
          .ok (st1, childDocId p n d1) ∧
        addChildUnique .ok st1 ⟨p, n, d2, none⟩ now2 =
          .ok (st2, childDocId p n d2)) := by
  have hkey : childDocId p n d1 ≠ childDocId p n d2 := by
    intro hcon
    apply hne
    have hcon2 : (p ++ "__" ++ normalizeName n ++ "__") ++ d1 =
        (p ++ "__" ++ normalizeName n ++ "__") ++ d2 := hcon
    have h2 := congrArg String.data hcon2
    rw [String.data_append, String.data_append] at h2
    exact String.ext (List.append_cancel_left h2)
  refine ⟨hkey, fun st now1 now2 h1 h2 => ?_⟩
  refine ⟨_, _, addChildUnique_ok_of_absent st ⟨p, n, d1, none⟩ now1 h1,
    addChildUnique_ok_of_absent _ ⟨p, n, d2, none⟩ now2 ?_⟩
  show (st.set (childDocId p n d1) (mkChildDoc ⟨p, n, d1, none⟩ now1)).get?
      (childDocId p n d2) = none
  rw [Store.get?_set_ne st _ hkey]
  exact h2

theorem claim8_witness :
    childDocId "P1" "Ann" "2020-01-01" ≠ childDocId "P1" "Ann" "2021-01-01" ∧
    (∃ st1 st2,
      addChildUnique .ok [] ⟨"P1", "Ann", "2020-01-01", none⟩ 0 =
        .ok (st1, childDocId "P1" "Ann" "2020-01-01") ∧
      addChildUnique .ok st1 ⟨"P1", "Ann", "2021-01-01", none⟩ 1 =
        .ok (st2, childDocId "P1" "Ann" "2021-01-01")) :=
  ⟨(claim8_distinct_dob_independent "P1" "Ann" "2020-01-01" "2021-01-01"
      (by decide)).1,
   (claim8_distinct_dob_independent "P1" "Ann" "2020-01-01" "2021-01-01"
      (by decide)).2 [] 0 1 rfl rfl⟩

/-- Claim C9 counterexample: the record written for the name
`"  Ann  "` carries the trimmed name `"Ann"`, not the name string as
entered by the caller, so the stored record does not contain the supplied
`name` field verbatim. -/
theorem claim9_counterexample :
    addChildUnique .ok [] ⟨"P1", "  Ann  ", "2020-01-01", none⟩ 0 =
      .ok ([("P1__ann__2020-01-01",
        { parentId := "P1", name := "Ann", dateOfBirth := "2020-01-01",
          allergies := [], createdAt := 0, updatedAt := 0 })],
        "P1__ann__2020-01-01") ∧
    ("Ann" : String) ≠ "  Ann  " :=
  ⟨rfl, by decide⟩

/-- Claim C9 (amended): on success the record written at the derived key
consists of exactly the supplied `parentId`, `dateOfBirth` and (defaulted)
`allergies`, the TRIMMED name, and the two server-assigned timestamps —
nothing else. -/
theorem claim9_trimmed_record (st : Store) (inp : CreateChildInput) (now : Nat)
    (h : st.get? (childDocId inp.parentId inp.name inp.dateOfBirth) = none) :
    ∃ st', addChildUnique .ok st inp now =
        .ok (st', childDocId inp.parentId inp.name inp.dateOfBirth) ∧
      st'.get? (childDocId inp.parentId inp.name inp.dateOfBirth) =
        some { parentId := inp.parentId
               name := jsTrim inp.name
               dateOfBirth := inp.dateOfBirth
               allergies := inp.allergies.getD []
               createdAt := now
               updatedAt := now } :=
  ⟨_, addChildUnique_ok_of_absent st inp now h, Store.get?_set_self st _ _⟩

theorem claim9_witness :
    ∃ st', addChildUnique .ok [] ⟨"P1", "  Ann  ", "2020-01-01", none⟩ 0 =
        .ok (st', childDocId "P1" "  Ann  " "2020-01-01") ∧
      st'.get? (childDocId "P1" "  Ann  " "2020-01-01") =
        some { parentId := "P1", name := jsTrim "  Ann  ",
               dateOfBirth := "2020-01-01", allergies := [],
               createdAt := 0, updatedAt := 0 } :=
  claim9_trimmed_record [] ⟨"P1", "  Ann  ", "2020-01-01", none⟩ 0 rfl

theorem childDocId_empty_slug {p n d : String} (h : normalizeName n = "") :
    childDocId p n d = p ++ "____" ++ d := by
  apply String.ext
  have h1 : childDocId p n d = p ++ "__" ++ "" ++ "__" ++ d := by
    rw [childDocId, h]
  rw [h1]
  have h2 : ("__" : String).data = ['_', '_'] := rfl
  have h4 : ("____" : String).data = ['_', '_', '_', '_'] := rfl
  have h0 : ("" : String).data = [] := rfl
  simp [String.data_append, h2, h4, h0]

/-- Claim C10: any two names whose normalization is the empty slug derive
the identical key `parentId ++ "____" ++ dateOfBirth`, so for one parent
and one birth date the first such child registers and any later one fails
with the duplicate error. -/
theorem claim10_empty_slug_collision (p d n1 n2 : String)
    (h1 : normalizeName n1 = "") (h2 : normalizeName n2 = "") :
    childDocId p n1 d = p ++ "____" ++ d ∧
    childDocId p n2 d = p ++ "____" ++ d ∧
    (∀ (st : Store) (now1 now2 : Nat), st.get? (p ++ "____" ++ d) = none →
      ∃ st', addChildUnique .ok st ⟨p, n1, d, none⟩ now1 =
          .ok (st', p ++ "____" ++ d) ∧
        addChildUnique .ok st' ⟨p, n2, d, none⟩ now2 =
          .error (.alreadyExists duplicateChildMsg)) := by
  have hk1 : childDocId p n1 d = p ++ "____" ++ d := childDocId_empty_slug h1
  have hk2 : childDocId p n2 d = p ++ "____" ++ d := childDocId_empty_slug h2
  refine ⟨hk1, hk2, fun st now1 now2 habs => ?_⟩
  have hok := addChildUnique_ok_of_absent st ⟨p, n1, d, none⟩ now1
    (by rw [show childDocId p n1 d = p ++ "____" ++ d from hk1]; exact habs)
  rw [show childDocId p n1 d = p ++ "____" ++ d from hk1] at hok
  refine ⟨_, hok, ?_⟩
  refine addChildUnique_error_of_present _ ⟨p, n2, d, none⟩ now2
    (mkChildDoc ⟨p, n1, d, none⟩ now1) ?_
  show (st.set (p ++ "____" ++ d) (mkChildDoc ⟨p, n1, d, none⟩ now1)).get?
      (childDocId p n2 d) = some (mkChildDoc ⟨p, n1, d, none⟩ now1)
  rw [show childDocId p n2 d = p ++ "____" ++ d from hk2]
  exact Store.get?_set_self st _ _

theorem claim10_witness :
    childDocId "P1" "!!!" "2020-05-15" = "P1" ++ "____" ++ "2020-05-15" ∧
    childDocId "P1" "???" "2020-05-15" = "P1" ++ "____" ++ "2020-05-15" ∧
    (∃ st', addChildUnique .ok [] ⟨"P1", "!!!", "2020-05-15", none⟩ 0 =
        .ok (st', "P1" ++ "____" ++ "2020-05-15") ∧
      addChildUnique .ok st' ⟨"P1", "???", "2020-05-15", none⟩ 1 =
        .error (.alreadyExists duplicateChildMsg)) := by
  obtain ⟨w1, w2, w3⟩ :=
    claim10_empty_slug_collision "P1" "2020-05-15" "!!!" "???"
      (by decide) (by decide)
  exact ⟨w1, w2, w3 [] 0 1 rfl⟩

/-- Claim C1: `normalizeName` returns the slug of the specified pipeline
(trim, lower-case, strip diacritics, remove other characters, collapse
separator runs, strip hyphens); it identifies strings that differ only in
case, only in accent marks, or only in whitespace/hyphen style; and it is
total, with empty or all-punctuation input yielding the empty string. -/
theorem claim1_normalizeName_contract :
    (∀ s : String, normalizeName s = normalizeNameSpec s) ∧
    (∀ s t : String, s.data.map jsToLower = t.data.map jsToLower →
      normalizeName s = normalizeName t) ∧
    (∀ s : String, normalizeName (deaccent s) = normalizeName s) ∧
    (∀ s t : String, SepEquiv s.data t.data →
      normalizeName s = normalizeName t) ∧
    normalizeName "" = "" ∧
    (∀ s : String, (∀ c ∈ s.data, (coreChar c).all isSep = true) →
      normalizeName s = "") :=
  ⟨fun _ => rfl,
   fun _ _ h => normalizeName_case_invariant h,
   normalizeName_deaccent,
   fun _ _ h => normalizeName_sepEquiv h,
   rfl,
   fun _ h => normalizeName_erasable h⟩

theorem claim1_witness :
    normalizeName "JEAN-LUC" = normalizeName "jean-luc" ∧
    normalizeName (deaccent "Élodie") = normalizeName "Élodie" ∧
    normalizeName "Jean Luc" = normalizeName "Jean-Luc" ∧
    normalizeName "!!!" = "" :=
  ⟨claim1_normalizeName_contract.2.1 "JEAN-LUC" "jean-luc" (by decide),
   claim1_normalizeName_contract.2.2.1 "Élodie",
   claim1_normalizeName_contract.2.2.2.1 "Jean Luc" "Jean-Luc"
     (show SepEquiv ('J' :: 'e' :: 'a' :: 'n' :: ' ' :: 'L' :: 'u' :: 'c' :: [])
        ('J' :: 'e' :: 'a' :: 'n' :: '-' :: 'L' :: 'u' :: 'c' :: []) from
      SepEquiv.char (by decide) (SepEquiv.char (by decide)
        (SepEquiv.char (by decide) (SepEquiv.char (by decide)
          (@SepEquiv.seps [' '] ['-'] ('L' :: 'u' :: 'c' :: [])
            ('L' :: 'u' :: 'c' :: []) (by simp) (by simp)
            (by decide) (by decide)
            (SepEquiv.char (by decide) (SepEquiv.char (by decide)
              (SepEquiv.char (by decide) SepEquiv.nil)))))))),
   claim1_normalizeName_contract.2.2.2.2.2 "!!!" (by decide)⟩

end Creche
